import Mathlib

/-!
# Verification of the CSV_MIDIv3 event scheduler and raw-payload importer

Shallow embedding of the scheduling/quantization core of
`src/core/midi_generator.py` (class `MIDIGenerator`) and of the raw hex
payload import path `Grok/GrokMidi/midi_generator.py`
(`clean_hex_string` / `create_midi_file`), together with the
time-signature normalizer of `src/instruments/base.py`
(`BaseInstrument.convert_to_4_4`).

Python floats are modelled by rationals.  All arithmetic the scheduler
performs on times (`time * 4`, `round`, `/ 4`, `max`, `+`) is exact on
IEEE doubles whenever the inputs are representable dyadic rationals
(scaling by 4 and dividing by 4 are exact, `round` ties-to-even is the
documented Python 3 behaviour), so the rational model agrees with the
Python code on every representable input.
-/

namespace CSVMidi

/-- Python 3 `round` on an exact rational value: round to the nearest
integer, ties to the even integer (banker's rounding). -/
def pyRound (q : ℚ) : ℤ :=
  if q - ⌊q⌋ < 1/2 then ⌊q⌋
  else if 1/2 < q - ⌊q⌋ then ⌊q⌋ + 1
  else if ⌊q⌋ % 2 = 0 then ⌊q⌋ else ⌊q⌋ + 1

/-- `MIDIGenerator._quantize_time`: `return round(time * 4) / 4`. -/
def quantizeTime (t : ℚ) : ℚ :=
  (pyRound (t * 4) : ℚ) / 4

/-- `MIDIGenerator._convert_time_to_44`: identity in 4/4, otherwise
`time * (original_beat_value / 4) * (4 / 4)`. -/
def convertTimeTo44 (sig : ℕ × ℕ) (t : ℚ) : ℚ :=
  if sig = (4, 4) then t
  else (t * ((sig.2 : ℚ) / 4)) * ((4 : ℚ) / 4)

/-- A parsed note event, as produced by `MIDIGenerator._parse_note_event`:
`(note, time, duration, velocity)`, all numeric. -/
structure NoteEvent where
  note : ℤ
  time : ℚ
  duration : ℚ
  velocity : ℤ
  deriving Repr, DecidableEq

/-- One scheduled note, the arguments the generator hands to
`self.midi.addNote(0, channel, note, quantized_time, quantized_duration,
velocity)`. -/
structure SchedEvent where
  channel : ℕ
  note : ℤ
  start : ℚ
  duration : ℚ
  velocity : ℤ
  deriving Repr, DecidableEq

/-- The per-channel `self._last_note_time` array, initialised to
`[0.0] * 16`. -/
def initLastNoteTime : ℕ → ℚ := fun _ => 0

/-- The body of the event loop of `MIDIGenerator.add_pattern` for one
parsed event: clamp note and velocity to [0,127], floor the duration at
0.0625, convert `start_time + time` and the duration to 4/4, quantize,
apply the per-channel forward push `max(self._last_note_time[channel], .)`,
and update `self._last_note_time[channel]`. -/
def processEvent (sig : ℕ × ℕ) (startTime : ℚ) (ch : ℕ)
    (st : ℕ → ℚ) (e : NoteEvent) : (ℕ → ℚ) × SchedEvent :=
  let note := max 0 (min 127 e.note)
  let velocity := max 0 (min 127 e.velocity)
  let noteDuration := max (1/16 : ℚ) e.duration
  let convertedTime := convertTimeTo44 sig (startTime + e.time)
  let convertedDuration := convertTimeTo44 sig noteDuration
  let quantizedTime := max (st ch) (quantizeTime convertedTime)
  let quantizedDuration := quantizeTime convertedDuration
  let st' := fun c => if c = ch then quantizedTime + quantizedDuration else st c
  (st', ⟨ch, note, quantizedTime, quantizedDuration, velocity⟩)

/-- The event loop of `MIDIGenerator.add_pattern`, threading
`self._last_note_time` through the (already sorted) pattern. -/
def processEvents (sig : ℕ × ℕ) (startTime : ℚ) (ch : ℕ)
    (st : ℕ → ℚ) : List NoteEvent → (ℕ → ℚ) × List SchedEvent
  | [] => (st, [])
  | e :: rest =>
    let r := processEvent sig startTime ch st e
    let out := processEvents sig startTime ch r.1 rest
    (out.1, r.2 :: out.2)

/-- Stable insertion used to model Python's stable `sorted(pattern,
key=lambda x: x[1])`.  In `sortByTime` the elements are inserted right to
left, so at insertion time the accumulator holds exactly the elements
that were originally to the right of the inserted one; placing it before
the first element of greater-or-equal key therefore reproduces the
stable order. -/
def insertByTime (e : NoteEvent) : List NoteEvent → List NoteEvent
  | [] => [e]
  | x :: xs => if e.time ≤ x.time then e :: x :: xs else x :: insertByTime e xs

/-- Stable sort by start time, modelling `sorted(pattern, key=lambda x:
x[1])` in `MIDIGenerator.add_pattern`. -/
def sortByTime (pattern : List NoteEvent) : List NoteEvent :=
  pattern.foldr insertByTime []

/-- `MIDIGenerator.add_pattern` restricted to its scheduling effect: the
drums instrument is forced onto channel 9, the pattern is sorted by start
time, and every event is scheduled through `processEvent`.  Returns the
final `_last_note_time` state and the list of notes passed to `addNote`,
in order. -/
def addPattern (sig : ℕ × ℕ) (isDrums : Bool) (channel : ℕ)
    (startTime : ℚ) (pattern : List NoteEvent) (st : ℕ → ℚ) :
    (ℕ → ℚ) × List SchedEvent :=
  let ch := if isDrums then 9 else channel
  processEvents sig startTime ch st (sortByTime pattern)

/-- `BaseInstrument.time_signature_factors` from `src/instruments/base.py`:
`{'3/4': 3/4, '6/8': 2/3, '5/4': 4/5, '7/8': 4/7, '9/8': 4/9, '12/8': 2/3}`. -/
def timeSignatureFactors : List (String × ℚ) :=
  [("3/4", 3/4), ("6/8", 2/3), ("5/4", 4/5), ("7/8", 4/7), ("9/8", 4/9), ("12/8", 2/3)]

/-- `BaseInstrument.convert_to_4_4`: scale the duration by the tabled
factor when the signature is a key of `time_signature_factors`, otherwise
return it unchanged. -/
def convertTo44 (duration : ℚ) (originalTimeSig : String) : ℚ :=
  match timeSignatureFactors.lookup originalTimeSig with
  | some factor => duration * factor
  | none => duration

/-- ASCII lowering of one character, modelling Python `str.lower` on the
ASCII drum-name strings in play. -/
def lowerChar (c : Char) : Char :=
  if 'A' ≤ c ∧ c ≤ 'Z' then Char.ofNat (c.toNat + 32) else c

/-- `drum_type.lower()`. -/
def strLower (s : String) : String := ⟨s.data.map lowerChar⟩

/-- `MIDIGenerator.DRUM_NOTES` (GM drum-kit mapping). -/
def DRUM_NOTES : List (String × ℤ) :=
  [("kick", 36), ("snare", 38), ("hihat", 42), ("hihat_open", 46),
   ("tom1", 45), ("tom2", 47), ("tom3", 50), ("crash", 49),
   ("ride", 51), ("clap", 39), ("rim", 37), ("cowbell", 56)]

/-- `MIDIGenerator._get_drum_note`:
`return self.DRUM_NOTES.get(drum_type.lower(), 36)`. -/
def getDrumNote (drumType : String) : ℤ :=
  (DRUM_NOTES.lookup (strLower drumType)).getD 36

end CSVMidi

namespace GrokMidi

/-! Embedding of `Grok/GrokMidi/midi_generator.py`.  The hex text is a
list of characters; decoded byte strings are lists of naturals < 256. -/

/-- Value of one hex digit, `none` on a non-hex character (the check
performed by Python's `bytes.fromhex`). -/
def hexVal (c : Char) : Option ℕ :=
  if '0' ≤ c ∧ c ≤ '9' then some (c.toNat - 48)
  else if 'a' ≤ c ∧ c ≤ 'f' then some (c.toNat - 87)
  else if 'A' ≤ c ∧ c ≤ 'F' then some (c.toNat - 55)
  else none

/-- `bytes.fromhex` on an already whitespace-free string: pairs of hex
digits become bytes; an odd-length or non-hex input raises (`none`). -/
def bytesFromHex : List Char → Option (List ℕ)
  | [] => some []
  | [_] => none
  | c :: d :: rest => do
    let hi ← hexVal c
    let lo ← hexVal d
    let bs ← bytesFromHex rest
    pure ((16 * hi + lo) :: bs)

/-- One-pass scanner behind `stripLineComments`.  With the flag set the
scanner is inside a commented-out line and drops every character up to,
but not including, the newline; with the flag clear, a `//` pair
switches it into comment mode, any other character is kept. -/
def stripCommentsAux : Bool → List Char → List Char
  | _, [] => []
  | true, c :: rest =>
    if c = '\n' then c :: stripCommentsAux false rest
    else stripCommentsAux true rest
  | false, c :: rest =>
    match rest with
    | [] => [c]
    | d :: _ =>
      if c = '/' ∧ d = '/' then stripCommentsAux true rest
      else c :: stripCommentsAux false rest

/-- `re.sub(r'//.*$', '', hex_string, flags=re.MULTILINE)`: in every
line, remove everything from the first `//` to the end of the line (the
newline itself is not consumed by the pattern and survives). -/
def stripLineComments (l : List Char) : List Char :=
  stripCommentsAux false l

/-- Python whitespace as recognised by `str.split()` (ASCII range). -/
def isPySpace (c : Char) : Bool :=
  c = ' ' ∨ c = '\t' ∨ c = '\n' ∨ c = '\r' ∨ c = '\x0b' ∨ c = '\x0c'

/-- `clean_hex_string`: strip `//` line comments, then
`''.join(hex_string.split())` removes every whitespace character. -/
def cleanHexString (s : List Char) : List Char :=
  (stripLineComments s).filter (fun c => !(isPySpace c))

/-- The loop `while hex_data.startswith('00'): hex_data = hex_data[2:]`. -/
def trimLeading00 : List Char → List Char
  | c :: d :: rest => if c = '0' ∧ d = '0' then trimLeading00 rest else c :: d :: rest
  | cs => cs

/-- The loop `while hex_data.endswith('00'): hex_data = hex_data[:-2]`,
realised through the leading-pair trimmer on the reversed string (a
trailing `"00"` is a leading `"00"` of the reversal). -/
def trimTrailing00 (cs : List Char) : List Char :=
  (trimLeading00 cs.reverse).reverse

/-- `'4D546864'`, the hex spelling of the file-header magic `MThd`. -/
def mthdChars : List Char := ['4', 'D', '5', '4', '6', '8', '6', '4']

/-- `'4D54726B'`, the hex spelling of the track-chunk magic `MTrk`. -/
def mtrkChars : List Char := ['4', 'D', '5', '4', '7', '2', '6', 'B']

/-- `'4D54686400000006000000010060'`: the synthesized file header chunk
(format 0, one track, 96 ticks per quarter note). -/
def headerChars : List Char :=
  ['4', 'D', '5', '4', '6', '8', '6', '4',
   '0', '0', '0', '0', '0', '0', '0', '6',
   '0', '0', '0', '0', '0', '0', '0', '1',
   '0', '0', '6', '0']

/-- Fuel-driven digit extractor behind `toHexCore`; the fuel only makes
the recursion structural and is always sufficient (`n < fuel`). -/
def toHexCoreAux : ℕ → ℕ → List Char
  | 0, _ => []
  | fuel + 1, n =>
    if n < 16 then [Nat.digitChar n]
    else toHexCoreAux fuel (n / 16) ++ [Nat.digitChar (n % 16)]

/-- Minimal lowercase hex digits of `n`, most significant first
(`format(n, 'x')`). -/
def toHexCore (n : ℕ) : List Char :=
  toHexCoreAux (n + 1) n

/-- `format(track_length, '08x')`: minimal hex digits left-padded with
`'0'` to width 8. -/
def toHex8 (n : ℕ) : List Char :=
  List.replicate (8 - (toHexCore n).length) '0' ++ toHexCore n

/-- Slices `l[i:i+n]` for `i in range(0, len(l), n)`. -/
def chunksOf (n : ℕ) (l : List Char) : List (List Char) :=
  if _h : l = [] ∨ n = 0 then []
  else l.take n :: chunksOf n (l.drop n)
termination_by l.length
decreasing_by
  simp only [not_or] at _h
  have hl : 0 < l.length := List.length_pos.mpr _h.1
  simp only [List.length_drop]
  omega

/-- The text written by `save_hex_to_text`: byte pairs separated by
spaces, the spaced string wrapped at 32 characters, under a fixed
heading. -/
def hexDumpText (fullData : List Char) : List Char :=
  "Full MIDI Hex:\n".data ++
    List.intercalate ['\n'] (chunksOf 32 (List.intercalate [' '] (chunksOf 2 fullData)))

/-- `create_midi_file` up to its filesystem effects: trim leading and
trailing `00` pairs, classify by the leading magic, synthesize the
missing framing, and decode the hex to bytes.  On success both the
binary image and the debug hex dump are produced; when `bytes.fromhex`
raises, the exception propagates before either file is written, so
nothing is produced (`none`). -/
def createMidiData (hexData0 : List Char) : Option (List ℕ × List Char) :=
  let hexData := trimTrailing00 (trimLeading00 hexData0)
  let fullData :=
    if mthdChars.isPrefixOf hexData then hexData
    else
      let trackContent := if mtrkChars.isPrefixOf hexData then hexData.drop 16 else hexData
      let trackLength := trackContent.length / 2
      let fullTrack := mtrkChars ++ toHex8 trackLength ++ trackContent
      headerChars ++ fullTrack
  match bytesFromHex fullData with
  | some binaryData => some (binaryData, hexDumpText fullData)
  | none => none

/-- The import pipeline `read_midi_binary` → `create_midi_file`:
clean the raw text, then build the file image. -/
def importHex (s : List Char) : Option (List ℕ × List Char) :=
  createMidiData (cleanHexString s)

/-- A hex string is well formed exactly when `bytes.fromhex` accepts it:
even length, hex digits only. -/
def wfHex (cs : List Char) : Prop :=
  cs.length % 2 = 0 ∧ ∀ c ∈ cs, (hexVal c).isSome

/-- Big-endian value of a byte string. -/
def beVal (bs : List ℕ) : ℕ :=
  bs.foldl (fun a b => 256 * a + b) 0

/-- Big-endian value of a hex digit string. -/
def hexListVal (cs : List Char) : ℕ :=
  cs.foldl (fun a c => 16 * a + (hexVal c).getD 0) 0

/-- The decoded bytes of `headerChars`: `MThd`, length 6, format 0, one
track, 96 ticks per quarter note. -/
def headerBytes : List ℕ := [77, 84, 104, 100, 0, 0, 0, 6, 0, 0, 0, 1, 0, 96]

/-- The decoded bytes of `mtrkChars`: the `MTrk` track-chunk magic. -/
def mtrkBytes : List ℕ := [77, 84, 114, 107]

end GrokMidi

namespace SpecModel

/-- Modelled from the spec: the round-half-up rule the spec claims for
quantization, `round(start*4)/4` "where exact half-way values round
upward", i.e. rounding to the nearest integer with ties going up
(`⌊q + 1/2⌋`).  Used only to compare against the code's rounding. -/
def roundHalfUp (q : ℚ) : ℤ := ⌊q + 1/2⌋

/-- Modelled from the spec: quantization with the round-half-up rule. -/
def quantizeHalfUp (t : ℚ) : ℚ := (roundHalfUp (t * 4) : ℚ) / 4

end SpecModel

open CSVMidi GrokMidi

/-! ## Helper lemmas about the scheduler -/

theorem pyRound_near (q : ℚ) :
    |q - (pyRound q : ℚ)| ≤ 1/2 ∧ (|q - (pyRound q : ℚ)| = 1/2 → pyRound q % 2 = 0) := by
  have h0 : (⌊q⌋ : ℚ) ≤ q := Int.floor_le q
  have h1 : q < ⌊q⌋ + 1 := Int.lt_floor_add_one q
  unfold pyRound
  split_ifs with hr hr2 he
  · rw [abs_of_nonneg (by linarith)]
    exact ⟨by linarith, fun h => absurd h (by linarith)⟩
  · have : q - ((⌊q⌋ : ℤ) + 1 : ℤ) = q - (⌊q⌋ : ℚ) - 1 := by push_cast; ring
    rw [this, abs_of_nonpos (by linarith)]
    exact ⟨by linarith, fun h => absurd h (by linarith)⟩
  · have hq : q - (⌊q⌋ : ℚ) = 1/2 := le_antisymm (not_lt.mp hr2) (not_lt.mp hr)
    rw [abs_of_nonneg (by linarith : (0:ℚ) ≤ q - (⌊q⌋ : ℚ))]
    exact ⟨by linarith, fun _ => he⟩
  · have hq : q - (⌊q⌋ : ℚ) = 1/2 := le_antisymm (not_lt.mp hr2) (not_lt.mp hr)
    have : q - ((⌊q⌋ : ℤ) + 1 : ℤ) = q - (⌊q⌋ : ℚ) - 1 := by push_cast; ring
    rw [this, abs_of_nonpos (by linarith)]
    refine ⟨by linarith, fun _ => ?_⟩
    omega

theorem pyRound_nonneg {q : ℚ} (h : 0 ≤ q) : 0 ≤ pyRound q := by
  have h0 : 0 ≤ ⌊q⌋ := Int.floor_nonneg.mpr h
  unfold pyRound
  split_ifs <;> omega

theorem quantizeTime_nonneg {t : ℚ} (h : 0 ≤ t) : 0 ≤ quantizeTime t := by
  unfold quantizeTime
  have h4 : 0 ≤ pyRound (t * 4) := pyRound_nonneg (by linarith)
  have : (0 : ℚ) ≤ (pyRound (t * 4) : ℚ) := by exact_mod_cast h4
  linarith

theorem convertTimeTo44_nonneg (sig : ℕ × ℕ) {t : ℚ} (h : 0 ≤ t) :
    0 ≤ convertTimeTo44 sig t := by
  unfold convertTimeTo44
  split_ifs
  · exact h
  · have hd : (0 : ℚ) ≤ (sig.2 : ℚ) / 4 := by positivity
    have := mul_nonneg h hd
    linarith

theorem processEvent_start (sig : ℕ × ℕ) (t0 : ℚ) (ch : ℕ) (st : ℕ → ℚ) (e : NoteEvent) :
    (processEvent sig t0 ch st e).2.start
      = max (st ch) (quantizeTime (convertTimeTo44 sig (t0 + e.time))) := rfl

theorem processEvent_duration (sig : ℕ × ℕ) (t0 : ℚ) (ch : ℕ) (st : ℕ → ℚ) (e : NoteEvent) :
    (processEvent sig t0 ch st e).2.duration
      = quantizeTime (convertTimeTo44 sig (max (1/16 : ℚ) e.duration)) := rfl

theorem processEvent_channel (sig : ℕ × ℕ) (t0 : ℚ) (ch : ℕ) (st : ℕ → ℚ) (e : NoteEvent) :
    (processEvent sig t0 ch st e).2.channel = ch := rfl

theorem processEvent_state (sig : ℕ × ℕ) (t0 : ℚ) (ch : ℕ) (st : ℕ → ℚ) (e : NoteEvent) :
    (processEvent sig t0 ch st e).1 ch
      = (processEvent sig t0 ch st e).2.start + (processEvent sig t0 ch st e).2.duration := by
  simp [processEvent]

/-- The scheduled output of one channel is sequential: every event starts
no earlier than the channel's incoming `lastEnd`, durations are
non-negative, each event ends no later than the next one starts, and the
final `lastEnd` bounds them all. -/
theorem processEvents_spec (sig : ℕ × ℕ) (t0 : ℚ) (ch : ℕ) :
    ∀ (evs : List NoteEvent) (st : ℕ → ℚ),
      List.Pairwise (fun a b : SchedEvent => a.start + a.duration ≤ b.start)
          (processEvents sig t0 ch st evs).2 ∧
      (∀ s ∈ (processEvents sig t0 ch st evs).2,
          st ch ≤ s.start ∧ 0 ≤ s.duration ∧ s.channel = ch) ∧
      st ch ≤ (processEvents sig t0 ch st evs).1 ch := by
  intro evs
  induction evs with
  | nil => intro st; simp [processEvents]
  | cons e rest ih =>
    intro st
    obtain ⟨ihp, ihm, ihs⟩ := ih (processEvent sig t0 ch st e).1
    have hdur : 0 ≤ (processEvent sig t0 ch st e).2.duration := by
      rw [processEvent_duration]
      exact quantizeTime_nonneg (convertTimeTo44_nonneg _
        (le_trans (by norm_num) (le_max_left (1/16 : ℚ) e.duration)))
    have hstart : st ch ≤ (processEvent sig t0 ch st e).2.start := by
      rw [processEvent_start]; exact le_max_left _ _
    have hstate := processEvent_state sig t0 ch st e
    refine ⟨?_, ?_, ?_⟩
    · simp only [processEvents]
      refine List.Pairwise.cons (fun b hb => ?_) ihp
      have hb' := (ihm b hb).1
      calc (processEvent sig t0 ch st e).2.start + (processEvent sig t0 ch st e).2.duration
          = (processEvent sig t0 ch st e).1 ch := hstate.symm
        _ ≤ b.start := hb'
    · simp only [processEvents, List.mem_cons]
      rintro s (rfl | hs)
      · exact ⟨hstart, hdur, processEvent_channel sig t0 ch st e⟩
      · obtain ⟨h1, h2, h3⟩ := ihm s hs
        refine ⟨le_trans ?_ h1, h2, h3⟩
        rw [hstate]
        linarith
    · simp only [processEvents]
      refine le_trans ?_ ihs
      rw [hstate]
      linarith

/-- Per-event bookkeeping of the loop: one output entry per input event,
and each output duration is the quantized, converted, 1/16-floored
duration of some input event. -/
theorem processEvents_shape (sig : ℕ × ℕ) (t0 : ℚ) (ch : ℕ) :
    ∀ (evs : List NoteEvent) (st : ℕ → ℚ),
      (processEvents sig t0 ch st evs).2.length = evs.length ∧
      ∀ s ∈ (processEvents sig t0 ch st evs).2, ∃ e ∈ evs,
        s.duration = quantizeTime (convertTimeTo44 sig (max (1/16 : ℚ) e.duration)) := by
  intro evs
  induction evs with
  | nil => intro st; simp [processEvents]
  | cons e rest ih =>
    intro st
    obtain ⟨ihl, ihm⟩ := ih (processEvent sig t0 ch st e).1
    refine ⟨?_, ?_⟩
    · simp only [processEvents, List.length_cons, ihl]
    · simp only [processEvents, List.mem_cons]
      rintro s (rfl | hs)
      · exact ⟨e, Or.inl rfl, processEvent_duration sig t0 ch st e⟩
      · obtain ⟨e', he', hd⟩ := ihm s hs
        exact ⟨e', Or.inr he', hd⟩

theorem insertByTime_perm (e : NoteEvent) (l : List NoteEvent) :
    List.Perm (insertByTime e l) (e :: l) := by
  induction l with
  | nil => exact List.Perm.refl _
  | cons x xs ih =>
    unfold insertByTime
    split_ifs
    · exact List.Perm.refl _
    · exact (ih.cons x).trans (List.Perm.swap e x xs)

theorem sortByTime_perm (p : List NoteEvent) : List.Perm (sortByTime p) p := by
  induction p with
  | nil => exact List.Perm.refl _
  | cons e rest ih =>
    exact (insertByTime_perm e (sortByTime rest)).trans (ih.cons e)

theorem lookup_eq_none_of_nomem {α : Type} {β : Type} [BEq α] [LawfulBEq α]
    (l : List (α × β)) (a : α) (h : a ∉ l.map Prod.fst) : l.lookup a = none := by
  induction l with
  | nil => rfl
  | cons p rest ih =>
    simp only [List.map_cons, List.mem_cons, not_or] at h
    simp only [List.lookup]
    rw [beq_eq_false_iff_ne.mpr h.1]
    exact ih h.2

/-! ## Claims about the scheduler -/

/-- C1 counterexample: the code applies the same forward-push on the
percussion channel.  Two drum events given at the same start beat 0 are
scheduled at starts 0 and 1, not preserved as concurrent entries at
their given start times (`[0, 0]`). -/
theorem claim_C1_counterexample :
    (addPattern (4, 4) true 0 0
        [⟨36, 0, 1, 100⟩, ⟨38, 0, 1, 100⟩] initLastNoteTime).2.map SchedEvent.start
      = [0, 1] ∧
    (addPattern (4, 4) true 0 0
        [⟨36, 0, 1, 100⟩, ⟨38, 0, 1, 100⟩] initLastNoteTime).2.map SchedEvent.channel
      = [9, 9] ∧
    ([0, 1] : List ℚ) ≠ [0, 0] := by
  refine ⟨?_, ?_, by norm_num⟩ <;>
    norm_num [addPattern, processEvents, processEvent, sortByTime, insertByTime,
    quantizeTime, pyRound, convertTimeTo44, initLastNoteTime, max_def, min_def]

/-- C1 amended: the scheduler applies the forward-push on the percussion
channel exactly as on melodic channels — each drum event starts at
`max(quantizedStart, lastEnd[9])`, `lastEnd[9]` becomes that start plus
the scheduled duration, and in consequence the percussion events of a
pattern are serialized end-to-start rather than kept concurrent. -/
theorem claim_C1_amended :
    (∀ (sig : ℕ × ℕ) (t0 : ℚ) (st : ℕ → ℚ) (e : NoteEvent),
      (processEvent sig t0 9 st e).2.start
          = max (quantizeTime (convertTimeTo44 sig (t0 + e.time))) (st 9) ∧
      (processEvent sig t0 9 st e).1 9
          = (processEvent sig t0 9 st e).2.start + (processEvent sig t0 9 st e).2.duration) ∧
    ∀ (sig : ℕ × ℕ) (t0 : ℚ) (channel : ℕ) (st : ℕ → ℚ) (pattern : List NoteEvent),
      List.Pairwise (fun a b : SchedEvent => a.start + a.duration ≤ b.start)
        (addPattern sig true channel t0 pattern st).2 := by
  constructor
  · intro sig t0 st e
    exact ⟨by rw [processEvent_start, max_comm], processEvent_state sig t0 9 st e⟩
  · intro sig t0 channel st pattern
    exact (processEvents_spec sig t0 9 (sortByTime pattern) st).1

/-- C2: on a melodic channel the effective start is
`max(quantizedStart, lastEnd[channel])` and `lastEnd[channel]` is then
the effective start plus the scheduled duration; and the two concurrent
events `(60, 0.0, 1.0)` and `(67, 0.0, 1.0)` on channel 0 schedule to
`(60, start 0, dur 1)` followed by `(67, start 1, dur 1)`. -/
theorem claim_C2 :
    (∀ (sig : ℕ × ℕ) (t0 : ℚ) (ch : ℕ) (st : ℕ → ℚ) (e : NoteEvent), ch ≠ 9 →
      (processEvent sig t0 ch st e).2.start
          = max (quantizeTime (convertTimeTo44 sig (t0 + e.time))) (st ch) ∧
      (processEvent sig t0 ch st e).1 ch
          = (processEvent sig t0 ch st e).2.start + (processEvent sig t0 ch st e).2.duration) ∧
    (addPattern (4, 4) false 0 0
        [⟨60, 0, 1, 100⟩, ⟨67, 0, 1, 100⟩] initLastNoteTime).2
      = [⟨0, 60, 0, 1, 100⟩, ⟨0, 67, 1, 1, 100⟩] := by
  constructor
  · intro sig t0 ch st e _h
    exact ⟨by rw [processEvent_start, max_comm], processEvent_state sig t0 ch st e⟩
  · norm_num [addPattern, processEvents, processEvent, sortByTime, insertByTime,
    quantizeTime, pyRound, convertTimeTo44, initLastNoteTime, max_def, min_def]

theorem claim_C2_witness :
    (processEvent (4, 4) 0 0 initLastNoteTime ⟨60, 0, 1, 100⟩).2.start
        = max (quantizeTime (convertTimeTo44 (4, 4) (0 + (0 : ℚ)))) (initLastNoteTime 0) ∧
    (processEvent (4, 4) 0 0 initLastNoteTime ⟨60, 0, 1, 100⟩).1 0
        = (processEvent (4, 4) 0 0 initLastNoteTime ⟨60, 0, 1, 100⟩).2.start
          + (processEvent (4, 4) 0 0 initLastNoteTime ⟨60, 0, 1, 100⟩).2.duration :=
  claim_C2.1 (4, 4) 0 0 initLastNoteTime ⟨60, 0, 1, 100⟩ (by decide)

/-- C4 counterexample: the code rounds halves to even, not up.  For
start beat 1/8 we have `start*4 = 1/2`; Python's `round` gives 0, so the
quantized start is 0, while the claimed round-half-up rule gives 1/4. -/
theorem claim_C4_counterexample :
    quantizeTime (1/8) = 0 ∧ SpecModel.quantizeHalfUp (1/8) = 1/4 ∧ (0 : ℚ) ≠ 1/4 := by
  refine ⟨by norm_num [quantizeTime, pyRound],
    by norm_num [SpecModel.quantizeHalfUp, SpecModel.roundHalfUp], by norm_num⟩

/-- C4 amended: `round(start*4)/4` quantizes every start beat to a
1/4-beat (sixteenth-note) grid point within 1/8 beat, but exact half-way
values round to the even grid index (Python banker's rounding), not
upward. -/
theorem claim_C4_amended (t : ℚ) :
    ∃ k : ℤ, quantizeTime t = (k : ℚ) / 4 ∧ |t - (k : ℚ) / 4| ≤ 1/8 ∧
      (|t - (k : ℚ) / 4| = 1/8 → k % 2 = 0) := by
  obtain ⟨h1, h2⟩ := pyRound_near (t * 4)
  have habs : |t - (pyRound (t * 4) : ℚ) / 4| = |t * 4 - (pyRound (t * 4) : ℚ)| / 4 := by
    rw [show t - (pyRound (t * 4) : ℚ) / 4 = (t * 4 - (pyRound (t * 4) : ℚ)) / 4 by ring,
      abs_div]
    norm_num
  refine ⟨pyRound (t * 4), rfl, ?_, ?_⟩
  · rw [habs]; linarith
  · intro h
    rw [habs] at h
    exact h2 (by linarith)

theorem claim_C4_amended_witness :
    ∃ k : ℤ, quantizeTime (1/8) = (k : ℚ) / 4 ∧ |(1/8 : ℚ) - (k : ℚ) / 4| ≤ 1/8 ∧
      (|(1/8 : ℚ) - (k : ℚ) / 4| = 1/8 → k % 2 = 0) :=
  claim_C4_amended (1/8)

/-- C5 counterexample: a melodic event of duration 1/20 beat has its
duration floored to 1/16 *before* quantization; 1/16 then quantizes to
zero, and the event is still emitted (output length 1) with scheduled
duration 0 instead of being dropped or floored to a positive tick. -/
theorem claim_C5_counterexample :
    (addPattern (4, 4) false 0 0 [⟨60, 0, 1/20, 100⟩] initLastNoteTime).2.map
        SchedEvent.duration = [0] ∧
    (addPattern (4, 4) false 0 0 [⟨60, 0, 1/20, 100⟩] initLastNoteTime).2.length = 1 ∧
    quantizeTime (max (1/16 : ℚ) (1/20)) = 0 := by
  refine ⟨?_, ?_, ?_⟩ <;>
    norm_num [addPattern, processEvents, processEvent, sortByTime, insertByTime,
    quantizeTime, pyRound, convertTimeTo44, initLastNoteTime, max_def, min_def]

/-- C5 amended: the duration floor of 1/16 beat is applied *before*
conversion and quantization; no event is ever dropped — the scheduler
emits exactly one entry per input event — and every scheduled duration
is the quantized converted floored duration of some input event, which
is never negative but can be zero. -/
theorem claim_C5_amended (sig : ℕ × ℕ) (t0 : ℚ) (isDrums : Bool) (channel : ℕ)
    (st : ℕ → ℚ) (pattern : List NoteEvent) :
    (addPattern sig isDrums channel t0 pattern st).2.length = pattern.length ∧
    ∀ s ∈ (addPattern sig isDrums channel t0 pattern st).2,
      0 ≤ s.duration ∧ ∃ e ∈ pattern,
        s.duration = quantizeTime (convertTimeTo44 sig (max (1/16 : ℚ) e.duration)) := by
  have hperm := sortByTime_perm pattern
  obtain ⟨hl, hm⟩ := processEvents_shape sig t0 (if isDrums then 9 else channel)
    (sortByTime pattern) st
  have hspec := (processEvents_spec sig t0 (if isDrums then 9 else channel)
    (sortByTime pattern) st).2.1
  refine ⟨hl.trans hperm.length_eq, fun s hs => ?_⟩
  obtain ⟨e, he, hd⟩ := hm s hs
  exact ⟨(hspec s hs).2.1, e, hperm.mem_iff.mp he, hd⟩

theorem claim_C5_amended_witness :
    0 ≤ (⟨0, 60, 0, 0, 100⟩ : SchedEvent).duration ∧
    ∃ e ∈ [(⟨60, 0, 1/20, 100⟩ : NoteEvent)],
      (⟨0, 60, 0, 0, 100⟩ : SchedEvent).duration
        = quantizeTime (convertTimeTo44 (4, 4) (max (1/16 : ℚ) e.duration)) :=
  (claim_C5_amended (4, 4) 0 false 0 initLastNoteTime [⟨60, 0, 1/20, 100⟩]).2
    ⟨0, 60, 0, 0, 100⟩ (by
      norm_num [addPattern, processEvents, processEvent, sortByTime, insertByTime,
    quantizeTime, pyRound, convertTimeTo44, initLastNoteTime, max_def, min_def])

/-- C6: on any non-percussion channel, the half-open intervals
`[start, start+duration)` of any two scheduled events never overlap. -/
theorem claim_C6 (sig : ℕ × ℕ) (t0 : ℚ) (isDrums : Bool) (channel : ℕ)
    (st : ℕ → ℚ) (pattern : List NoteEvent)
    (_h : (if isDrums then 9 else channel) ≠ 9) :
    List.Pairwise (fun a b : SchedEvent =>
        a.start + a.duration ≤ b.start ∨ b.start + b.duration ≤ a.start)
      (addPattern sig isDrums channel t0 pattern st).2 :=
  ((processEvents_spec sig t0 (if isDrums then 9 else channel)
      (sortByTime pattern) st).1).imp Or.inl

theorem claim_C6_witness :
    List.Pairwise (fun a b : SchedEvent =>
        a.start + a.duration ≤ b.start ∨ b.start + b.duration ≤ a.start)
      (addPattern (4, 4) false 0 0
        [⟨60, 0, 1, 100⟩, ⟨67, 0, 1, 100⟩] initLastNoteTime).2 :=
  claim_C6 (4, 4) 0 false 0 initLastNoteTime
    [⟨60, 0, 1, 100⟩, ⟨67, 0, 1, 100⟩] (by decide)

/-- C7: `convert_to_4_4` is pure and multiplies by the tabled
per-signature factor — exactly 3/4, 2/3, 4/5, 4/7, 4/9, 2/3 for the six
known signatures (the spec's 0.667 is the rounded rendering of 2/3) —
and any signature outside the table passes through unchanged (factor 1,
no error). -/
theorem claim_C7 :
    (∀ (d : ℚ) (sig : String),
        convertTo44 d sig = d * ((timeSignatureFactors.lookup sig).getD 1)) ∧
    timeSignatureFactors.map Prod.fst = ["3/4", "6/8", "5/4", "7/8", "9/8", "12/8"] ∧
    timeSignatureFactors.map Prod.snd = [3/4, 2/3, 4/5, 4/7, 4/9, 2/3] := by
  refine ⟨fun d sig => ?_, rfl, by norm_num [timeSignatureFactors]⟩
  unfold convertTo44
  cases h : timeSignatureFactors.lookup sig with
  | some f => simp
  | none => simp

/-- C10: the drum-name lookup is total with default kick (36): any name
whose lowercase form is not a key of `DRUM_NOTES` maps to 36 rather than
failing. -/
theorem claim_C10 (s : String) (h : strLower s ∉ DRUM_NOTES.map Prod.fst) :
    getDrumNote s = 36 := by
  unfold getDrumNote
  rw [lookup_eq_none_of_nomem _ _ h]
  rfl

theorem claim_C10_witness : getDrumNote "tambourine" = 36 :=
  claim_C10 "tambourine" (by decide)

/-! ## Helper lemmas about the hex importer -/

theorem twoStepInduction {α : Type} {P : List α → Prop} (h0 : P [])
    (h1 : ∀ a, P [a]) (h2 : ∀ a b l, P l → P (a :: b :: l)) : ∀ l, P l := by
  have key : ∀ l, P l ∧ ∀ a, P (a :: l) := by
    intro l
    induction l with
    | nil => exact ⟨h0, h1⟩
    | cons b l ih => exact ⟨ih.2 b, fun a => h2 a b l ih.1⟩
  exact fun l => (key l).1

theorem bytesFromHex_cons_cons (a b : Char) (l : List Char) :
    bytesFromHex (a :: b :: l)
      = (hexVal a).bind (fun hi => (hexVal b).bind (fun lo =>
          (bytesFromHex l).map ((16 * hi + lo) :: ·))) := by
  simp only [bytesFromHex, Option.bind_eq_bind]
  cases hexVal a <;> cases hexVal b <;> cases bytesFromHex l <;> rfl

theorem bytesFromHex_append :
    ∀ (cs : List Char) (bs : List ℕ), bytesFromHex cs = some bs →
      ∀ ds : List Char, bytesFromHex (cs ++ ds) = (bytesFromHex ds).map (bs ++ ·) := by
  refine twoStepInduction ?_ ?_ ?_
  · intro bs h ds
    simp only [bytesFromHex] at h
    cases h
    simp only [List.nil_append]
    cases bytesFromHex ds <;> simp
  · intro a bs h
    exact Option.noConfusion h
  · intro a b l ih bs h ds
    rw [bytesFromHex_cons_cons] at h
    cases ha : hexVal a with
    | none => rw [ha] at h; simp at h
    | some hi =>
      cases hb : hexVal b with
      | none => rw [ha, hb] at h; simp at h
      | some lo =>
        cases hl : bytesFromHex l with
        | none => rw [ha, hb, hl] at h; simp at h
        | some bs0 =>
          rw [ha, hb, hl] at h
          simp at h
          cases h
          rw [List.cons_append, List.cons_append, bytesFromHex_cons_cons, ha, hb,
            ih bs0 hl ds]
          cases bytesFromHex ds <;> simp

theorem bytesFromHex_length :
    ∀ (cs : List Char) (bs : List ℕ), bytesFromHex cs = some bs →
      cs.length = 2 * bs.length := by
  refine twoStepInduction ?_ ?_ ?_
  · intro bs h
    simp only [bytesFromHex] at h
    cases h
    rfl
  · intro a bs h
    exact Option.noConfusion h
  · intro a b l ih bs h
    rw [bytesFromHex_cons_cons] at h
    cases ha : hexVal a with
    | none => rw [ha] at h; simp at h
    | some hi =>
      cases hb : hexVal b with
      | none => rw [ha, hb] at h; simp at h
      | some lo =>
        cases hl : bytesFromHex l with
        | none => rw [ha, hb, hl] at h; simp at h
        | some bs0 =>
          rw [ha, hb, hl] at h
          simp at h
          cases h
          have := ih bs0 hl
          simp only [List.length_cons, this]
          ring

theorem bytesFromHex_foldl :
    ∀ (cs : List Char) (bs : List ℕ), bytesFromHex cs = some bs →
      ∀ a : ℕ, bs.foldl (fun x b => 256 * x + b) a
        = cs.foldl (fun x c => 16 * x + (hexVal c).getD 0) a := by
  refine twoStepInduction ?_ ?_ ?_
  · intro bs h a
    simp only [bytesFromHex] at h
    cases h
    rfl
  · intro a bs h
    exact Option.noConfusion h
  · intro a b l ih bs h acc
    rw [bytesFromHex_cons_cons] at h
    cases ha : hexVal a with
    | none => rw [ha] at h; simp at h
    | some hi =>
      cases hb : hexVal b with
      | none => rw [ha, hb] at h; simp at h
      | some lo =>
        cases hl : bytesFromHex l with
        | none => rw [ha, hb, hl] at h; simp at h
        | some bs0 =>
          rw [ha, hb, hl] at h
          simp at h
          cases h
          simp only [List.foldl_cons, ha, hb, Option.getD_some]
          rw [ih bs0 hl]
          congr 1
          ring

theorem bytesFromHex_isSome_iff :
    ∀ cs : List Char, (bytesFromHex cs).isSome ↔ wfHex cs := by
  refine twoStepInduction ?_ ?_ ?_
  · simp [bytesFromHex, wfHex]
  · intro a
    simp [bytesFromHex, wfHex]
  · intro a b l ih
    rw [bytesFromHex_cons_cons]
    constructor
    · intro h
      cases ha : hexVal a with
      | none => rw [ha] at h; simp at h
      | some hi =>
        cases hb : hexVal b with
        | none => rw [ha, hb] at h; simp at h
        | some lo =>
          cases hl : bytesFromHex l with
          | none => rw [ha, hb, hl] at h; simp at h
          | some bs0 =>
            have hw : wfHex l := ih.mp (by rw [hl]; rfl)
            obtain ⟨hpar, hmem⟩ := hw
            refine ⟨by simp only [List.length_cons]; omega, ?_⟩
            intro c hc
            rcases List.mem_cons.mp hc with rfl | hc2
            · rw [ha]; rfl
            rcases List.mem_cons.mp hc2 with rfl | hc3
            · rw [hb]; rfl
            exact hmem c hc3
    · rintro ⟨hpar, hmem⟩
      have ha : (hexVal a).isSome := hmem a (by simp)
      have hb : (hexVal b).isSome := hmem b (by simp)
      have hl : (bytesFromHex l).isSome := by
        rw [ih]
        simp only [List.length_cons] at hpar
        refine ⟨by omega, fun c hc => hmem c (by simp [hc])⟩
      obtain ⟨hi, ha'⟩ := Option.isSome_iff_exists.mp ha
      obtain ⟨lo, hb'⟩ := Option.isSome_iff_exists.mp hb
      obtain ⟨bs0, hl'⟩ := Option.isSome_iff_exists.mp hl
      rw [ha', hb', hl']
      rfl

theorem wfHex_reverse (l : List Char) : wfHex l.reverse ↔ wfHex l := by
  simp [wfHex]

theorem trimLeading00_wf : ∀ l : List Char, wfHex (trimLeading00 l) → wfHex l := by
  refine twoStepInduction ?_ ?_ ?_
  · exact fun h => h
  · exact fun a h => h
  · intro a b l ih h
    by_cases hab : a = '0' ∧ b = '0'
    · obtain ⟨rfl, rfl⟩ := hab
      rw [show trimLeading00 ('0' :: '0' :: l) = trimLeading00 l from by
        simp [trimLeading00]] at h
      obtain ⟨hpar, hmem⟩ := ih h
      refine ⟨by simp only [List.length_cons]; omega, ?_⟩
      intro c hc
      rcases List.mem_cons.mp hc with rfl | hc2
      · rfl
      rcases List.mem_cons.mp hc2 with rfl | hc3
      · rfl
      exact hmem c hc3
    · rwa [show trimLeading00 (a :: b :: l) = a :: b :: l from by
        simp [trimLeading00, hab]] at h

theorem trimLeading00_eq_self (l : List Char) (h : l.take 2 ≠ ['0', '0']) :
    trimLeading00 l = l := by
  match l with
  | [] => rfl
  | [a] => rfl
  | a :: b :: rest =>
    have : ¬(a = '0' ∧ b = '0') := by
      rintro ⟨rfl, rfl⟩
      exact h rfl
    simp [trimLeading00, this]

theorem trimTrailing00_wf (l : List Char) (h : wfHex (trimTrailing00 l)) : wfHex l := by
  unfold trimTrailing00 at h
  rw [wfHex_reverse] at h
  exact (wfHex_reverse l).mp (trimLeading00_wf l.reverse h)

theorem trimTrailing00_eq_self (l : List Char) (h : l.reverse.take 2 ≠ ['0', '0']) :
    trimTrailing00 l = l := by
  unfold trimTrailing00
  rw [trimLeading00_eq_self l.reverse h, List.reverse_reverse]

theorem hexVal_digitChar : ∀ d < 16, hexVal (Nat.digitChar d) = some d := by decide

theorem hexVal_zero_char : hexVal '0' = some 0 := by decide

theorem toHexCoreAux_fuel : ∀ (n f1 f2 : ℕ), n < f1 → n < f2 →
    toHexCoreAux f1 n = toHexCoreAux f2 n := by
  intro n
  induction n using Nat.strong_induction_on with
  | _ n ih =>
    intro f1 f2 h1 h2
    match f1, f2 with
    | g1 + 1, g2 + 1 =>
      simp only [toHexCoreAux]
      split_ifs with h16
      · rfl
      · rw [ih (n / 16) (Nat.div_lt_self (by omega) (by norm_num)) g1 g2
          (by omega) (by omega)]

theorem toHexCore_eq (n : ℕ) : toHexCore n
    = if n < 16 then [Nat.digitChar n]
      else toHexCore (n / 16) ++ [Nat.digitChar (n % 16)] := by
  have step : toHexCoreAux (n + 1) n
      = if n < 16 then [Nat.digitChar n]
        else toHexCoreAux n (n / 16) ++ [Nat.digitChar (n % 16)] := rfl
  unfold toHexCore
  rw [step]
  split_ifs with h
  · rfl
  · rw [toHexCoreAux_fuel (n / 16) n (n / 16 + 1) (by omega) (by omega)]

theorem toHexCore_mem : ∀ (n : ℕ) (c : Char), c ∈ toHexCore n → (hexVal c).isSome := by
  intro n
  induction n using Nat.strong_induction_on with
  | _ n ih =>
    intro c hc
    rw [toHexCore_eq] at hc
    split at hc
    · next hlt =>
      rcases List.mem_singleton.mp hc with rfl
      rw [hexVal_digitChar n hlt]
      rfl
    · next hge =>
      rcases List.mem_append.mp hc with hc1 | hc2
      · exact ih (n / 16) (Nat.div_lt_self (by omega) (by norm_num)) c hc1
      · rcases List.mem_singleton.mp hc2 with rfl
        rw [hexVal_digitChar (n % 16) (Nat.mod_lt n (by norm_num))]
        rfl

theorem hexListVal_toHexCore : ∀ n : ℕ, hexListVal (toHexCore n) = n := by
  intro n
  induction n using Nat.strong_induction_on with
  | _ n ih =>
    rw [toHexCore_eq]
    split
    · next hlt =>
      simp [hexListVal, hexVal_digitChar n hlt]
    · next hge =>
      have ihd := ih (n / 16) (Nat.div_lt_self (by omega) (by norm_num))
      unfold hexListVal
      rw [List.foldl_append]
      unfold hexListVal at ihd
      rw [ihd]
      simp [hexVal_digitChar (n % 16) (Nat.mod_lt n (by norm_num))]
      omega

theorem toHexCore_length_le : ∀ (k n : ℕ), 1 ≤ k → n < 16 ^ k →
    (toHexCore n).length ≤ k := by
  intro k
  induction k with
  | zero => omega
  | succ k ihk =>
    intro n _ hn
    rw [toHexCore_eq]
    split
    · simp
    · next hge =>
      have hk : 1 ≤ k := by
        by_contra hk0
        have : k = 0 := by omega
        subst this
        simp [pow_succ, pow_zero] at hn
        omega
      have hdiv : n / 16 < 16 ^ k := by
        rw [Nat.div_lt_iff_lt_mul (by norm_num)]
        calc n < 16 ^ (k + 1) := hn
          _ = 16 ^ k * 16 := by ring
      have := ihk (n / 16) hk hdiv
      simp only [List.length_append, List.length_singleton]
      omega

theorem hexListVal_replicate_zero (k : ℕ) (l : List Char) :
    hexListVal (List.replicate k '0' ++ l) = hexListVal l := by
  induction k with
  | zero => simp
  | succ k ih =>
    unfold hexListVal at ih ⊢
    rw [List.replicate_succ, List.cons_append, List.foldl_cons, hexVal_zero_char]
    simpa using ih

theorem toHex8_length {n : ℕ} (hn : n < 2 ^ 32) : (toHex8 n).length = 8 := by
  have h16 : n < 16 ^ 8 := by norm_num at hn ⊢; omega
  have hle := toHexCore_length_le 8 n (by norm_num) h16
  unfold toHex8
  simp only [List.length_append, List.length_replicate]
  omega

theorem toHex8_mem (n : ℕ) (c : Char) (hc : c ∈ toHex8 n) : (hexVal c).isSome := by
  unfold toHex8 at hc
  rcases List.mem_append.mp hc with h1 | h2
  · rw [List.eq_of_mem_replicate h1, hexVal_zero_char]
    rfl
  · exact toHexCore_mem n c h2

theorem hexListVal_toHex8 (n : ℕ) : hexListVal (toHex8 n) = n := by
  unfold toHex8
  rw [hexListVal_replicate_zero, hexListVal_toHexCore]

theorem bytesFromHex_toHex8 {n : ℕ} (hn : n < 2 ^ 32) :
    ∃ lb : List ℕ, bytesFromHex (toHex8 n) = some lb ∧ lb.length = 4 ∧ beVal lb = n := by
  have hwf : wfHex (toHex8 n) := by
    refine ⟨by rw [toHex8_length hn], fun c hc => toHex8_mem n c hc⟩
  have hsome : (bytesFromHex (toHex8 n)).isSome := (bytesFromHex_isSome_iff _).mpr hwf
  obtain ⟨lb, hlb⟩ := Option.isSome_iff_exists.mp hsome
  refine ⟨lb, hlb, ?_, ?_⟩
  · have := bytesFromHex_length (toHex8 n) lb hlb
    rw [toHex8_length hn] at this
    omega
  · have := bytesFromHex_foldl (toHex8 n) lb hlb 0
    unfold beVal
    rw [this]
    exact hexListVal_toHex8 n

theorem trimLeading00_length_le : ∀ l : List Char, (trimLeading00 l).length ≤ l.length := by
  refine twoStepInduction ?_ ?_ ?_
  · exact Nat.le_refl _
  · intro a; exact Nat.le_refl _
  · intro a b l ih
    by_cases hab : a = '0' ∧ b = '0'
    · obtain ⟨rfl, rfl⟩ := hab
      rw [show trimLeading00 ('0' :: '0' :: l) = trimLeading00 l from by
        simp [trimLeading00]]
      simp only [List.length_cons]
      omega
    · rw [show trimLeading00 (a :: b :: l) = a :: b :: l from by
        simp [trimLeading00, hab]]

theorem trimTrailing00_length_le (l : List Char) :
    (trimTrailing00 l).length ≤ l.length := by
  unfold trimTrailing00
  rw [List.length_reverse]
  calc (trimLeading00 l.reverse).length ≤ l.reverse.length := trimLeading00_length_le _
    _ = l.length := List.length_reverse l

/-! ## Claims about the hex importer -/

/-- C3 counterexample: the hex text `4D54686400` decodes to bytes
beginning with the file-header magic `MThd`, yet `importHex` emits only
4 bytes: the trailing zero byte is stripped before the pass-through
check, so the output is not byte-for-byte the decoded input. -/
theorem claim_C3_counterexample :
    bytesFromHex ("4D54686400".data) = some [77, 84, 104, 100, 0] ∧
    (importHex "4D54686400".data).map Prod.fst = some [77, 84, 104, 100] ∧
    some [77, 84, 104, 100] ≠ some [77, 84, 104, 100, 0] := by
  refine ⟨by decide, by decide, by decide⟩

/-- C3 amended: a payload is passed through byte-for-byte unchanged
provided the cleaned hex text spells the file-header magic in the
uppercase form `4D546864` the code compares against *and* the payload
does not end in a zero byte (equivalently, the cleaned text does not end
in `00`, which the zero-trimming step would strip). -/
theorem claim_C3_amended (s : List Char) (bs : List ℕ)
    (hm : ∃ t, cleanHexString s = mthdChars ++ t)
    (hz : (cleanHexString s).reverse.take 2 ≠ ['0', '0'])
    (hb : bytesFromHex (cleanHexString s) = some bs) :
    (importHex s).map Prod.fst = some bs := by
  obtain ⟨t, ht⟩ := hm
  have hlead : trimLeading00 (cleanHexString s) = cleanHexString s := by
    apply trimLeading00_eq_self
    rw [ht]
    simp [mthdChars]
  have htrail : trimTrailing00 (cleanHexString s) = cleanHexString s :=
    trimTrailing00_eq_self _ hz
  have hpre : mthdChars.isPrefixOf (cleanHexString s) = true := by
    rw [ht]
    exact List.isPrefixOf_iff_prefix.mpr ⟨t, rfl⟩
  simp only [importHex, createMidiData, hlead, htrail, hpre, if_true, hb]
  rfl

theorem claim_C3_amended_witness :
    (importHex "4D54686401".data).map Prod.fst = some [77, 84, 104, 100, 1] :=
  claim_C3_amended "4D54686401".data [77, 84, 104, 100, 1]
    ⟨['0', '1'], by decide⟩ (by decide) (by decide)

/-- C8 counterexample: the cleaned text `4D54726BQQQQQQQQAB` is not a
well-formed hex sequence (it contains `Q`), yet `importHex` does not
fail: the track-chunk branch discards the 8 characters after the `MTrk`
spelling unvalidated and produces a complete output file. -/
theorem claim_C8_counterexample :
    bytesFromHex (cleanHexString "4D54726BQQQQQQQQAB".data) = none ∧
    (importHex "4D54726BQQQQQQQQAB".data).map Prod.fst
      = some [77, 84, 104, 100, 0, 0, 0, 6, 0, 0, 0, 1, 0, 96,
              77, 84, 114, 107, 0, 0, 0, 1, 171] := by
  refine ⟨by decide, by decide⟩

/-- C8 amended: malformed cleaned input (odd length or a non-hex
character) makes `importHex` fail with no output produced, provided the
zero-trimmed payload does not begin with the track-chunk magic spelling
(whose branch discards its 8 length characters unvalidated); the length
bound keeps the synthesized length field at its normal 8 characters. -/
theorem claim_C8_amended (s : List Char)
    (hbad : bytesFromHex (cleanHexString s) = none)
    (hmtrk : mtrkChars.isPrefixOf
        (trimTrailing00 (trimLeading00 (cleanHexString s))) = false)
    (hlen : (cleanHexString s).length < 2 ^ 33) :
    importHex s = none := by
  have hwf_cs : ¬ wfHex (cleanHexString s) := by
    intro hwf
    have := (bytesFromHex_isSome_iff _).mpr hwf
    rw [hbad] at this
    exact Bool.noConfusion this
  have hwf_tr : ¬ wfHex (trimTrailing00 (trimLeading00 (cleanHexString s))) :=
    fun h => hwf_cs (trimLeading00_wf _ (trimTrailing00_wf _ h))
  have htr_none :
      bytesFromHex (trimTrailing00 (trimLeading00 (cleanHexString s))) = none := by
    cases hx : bytesFromHex (trimTrailing00 (trimLeading00 (cleanHexString s))) with
    | none => rfl
    | some b =>
      exact absurd ((bytesFromHex_isSome_iff _).mp (by rw [hx]; rfl)) hwf_tr
  have htrlen : (trimTrailing00 (trimLeading00 (cleanHexString s))).length < 2 ^ 33 :=
    lt_of_le_of_lt (le_trans (trimTrailing00_length_le _)
      (trimLeading00_length_le _)) hlen
  by_cases hmthd : mthdChars.isPrefixOf
      (trimTrailing00 (trimLeading00 (cleanHexString s))) = true
  · simp only [importHex, createMidiData, hmthd, if_true, htr_none]
  · have hmthd' : mthdChars.isPrefixOf
        (trimTrailing00 (trimLeading00 (cleanHexString s))) = false := by
      cases h : mthdChars.isPrefixOf (trimTrailing00 (trimLeading00 (cleanHexString s)))
      · rfl
      · exact absurd h hmthd
    have hfull_none : bytesFromHex (headerChars ++
        (mtrkChars ++ toHex8 ((trimTrailing00 (trimLeading00 (cleanHexString s))).length / 2)
          ++ trimTrailing00 (trimLeading00 (cleanHexString s)))) = none := by
      set tr := trimTrailing00 (trimLeading00 (cleanHexString s)) with htrdef
      cases hx : bytesFromHex (headerChars ++ (mtrkChars ++ toHex8 (tr.length / 2) ++ tr)) with
      | none => rfl
      | some b =>
        exfalso
        have hwfull : wfHex (headerChars ++ (mtrkChars ++ toHex8 (tr.length / 2) ++ tr)) :=
          (bytesFromHex_isSome_iff _).mp (by rw [hx]; rfl)
        obtain ⟨hpar, hmem⟩ := hwfull
        apply hwf_tr
        have h8 : (toHex8 (tr.length / 2)).length = 8 :=
          toHex8_length (by omega)
        constructor
        · simp only [List.length_append, headerChars, mtrkChars, h8,
            List.length_cons, List.length_nil] at hpar ⊢
          omega
        · intro c hc
          exact hmem c (by simp [hc])
    simp only [importHex, createMidiData, hmthd', Bool.false_eq_true, if_false,
      hmtrk, hfull_none]

theorem claim_C8_amended_witness : importHex "Z".data = none :=
  claim_C8_amended "Z".data (by decide) (by decide) (by decide)

/-- C9 counterexample: the hex input `AB00` decodes to the two-byte
payload `[0xAB, 0x00]`, which begins with neither magic; the claim
predicts a file of `14 + 8 + 2 = 24` bytes, but the trailing zero byte
is trimmed first and the output has 23 bytes. -/
theorem claim_C9_counterexample :
    bytesFromHex (cleanHexString "AB00".data) = some [171, 0] ∧
    (importHex "AB00".data).map (fun p => p.1.length) = some 23 ∧
    (23 : ℕ) ≠ 14 + 8 + 2 := by
  refine ⟨by decide, by decide, by decide⟩

/-- C9 amended: when the payload left after trimming leading/trailing
zero bytes begins with neither magic, the output is exactly the
synthesized header chunk, the `MTrk` magic, a 4-byte big-endian length
field whose value is the (trimmed) payload byte count, and the payload:
`header-chunk-size + track-chunk-header-size + payload-size` bytes in
total. -/
theorem claim_C9_amended (s : List Char) (bs : List ℕ)
    (h1 : mthdChars.isPrefixOf
        (trimTrailing00 (trimLeading00 (cleanHexString s))) = false)
    (h2 : mtrkChars.isPrefixOf
        (trimTrailing00 (trimLeading00 (cleanHexString s))) = false)
    (h3 : bytesFromHex (trimTrailing00 (trimLeading00 (cleanHexString s))) = some bs)
    (h4 : bs.length < 2 ^ 32) :
    ∃ lb : List ℕ,
      (importHex s).map Prod.fst = some (headerBytes ++ mtrkBytes ++ lb ++ bs) ∧
      lb.length = 4 ∧ beVal lb = bs.length ∧
      (headerBytes ++ mtrkBytes ++ lb ++ bs).length = 14 + 8 + bs.length := by
  have hlen : (trimTrailing00 (trimLeading00 (cleanHexString s))).length
      = 2 * bs.length := bytesFromHex_length _ bs h3
  have htl : (trimTrailing00 (trimLeading00 (cleanHexString s))).length / 2
      = bs.length := by omega
  obtain ⟨lb, hlb, hlb4, hlbval⟩ := bytesFromHex_toHex8 h4
  have hheader : bytesFromHex headerChars = some headerBytes := by decide
  have hmtrk : bytesFromHex mtrkChars = some mtrkBytes := by decide
  refine ⟨lb, ?_, hlb4, hlbval, ?_⟩
  · simp only [importHex, createMidiData, h1, h2, Bool.false_eq_true, if_false, htl]
    rw [List.append_assoc mtrkChars,
      bytesFromHex_append headerChars headerBytes hheader,
      bytesFromHex_append mtrkChars mtrkBytes hmtrk,
      bytesFromHex_append (toHex8 bs.length) lb hlb, h3]
    simp [List.append_assoc]
  · simp only [List.length_append, hlb4, headerBytes, mtrkBytes,
      List.length_cons, List.length_nil]

theorem claim_C9_amended_witness :
    ∃ lb : List ℕ,
      (importHex "AB".data).map Prod.fst = some (headerBytes ++ mtrkBytes ++ lb ++ [171]) ∧
      lb.length = 4 ∧ beVal lb = ([171] : List ℕ).length ∧
      (headerBytes ++ mtrkBytes ++ lb ++ [171]).length = 14 + 8 + ([171] : List ℕ).length :=
  claim_C9_amended "AB".data [171] (by decide) (by decide) (by decide) (by decide)
